import Mathlib

/-!
# gitleaks `detect.FromGit`

A shallow embedding of `detect/git.go`.  `FromGit` reads diff records from a
channel, starts one goroutine per record behind a buffered channel used as a
counting semaphore, and every goroutine appends its enriched findings to a
shared slice under a mutex.

* The body of the goroutine is sequential code; `scanBody` lists, in program
  order, the calls it makes to its collaborators together with its appends to
  the shared slice.
* The goroutines and the dispatching loop are interleaved by a scheduler;
  `step` is one atomic action of one thread and `run` executes a schedule.

Collaborators whose code lives in other files (`NewDetector`, `Detect`,
`Allowlist.CommitAllowed`, `Finding.Redact`, `MAXGOROUTINES`, the `gitdiff`
and `time` libraries) are parameters, collected in `Env`.  The timing tables
(`fileTimings`, `timings`) and the debug log line are written and never read
by `FromGit`; they are left out.
-/

set_option linter.dupNamespace false

namespace detect

/-! ## Machine integers -/

/-- Two's complement reduction to the range of a Go `int`, taken to be 64
bits wide (as it is on every 64 bit platform). -/
def wrapInt (x : Int) : Int := (x + 2 ^ 63) % 2 ^ 64 - 2 ^ 63

/-- Go `a + b` on `int`: the sum, wrapped around on overflow. -/
def intAdd (a b : Int) : Int := wrapInt (a + b)

/-- The values a Go `int` (and an `int64`) can hold. -/
def fitsInt (x : Int) : Prop := -(2 ^ 63) ≤ x ∧ x < 2 ^ 63

instance (x : Int) : Decidable (fitsInt x) := by
  unfold fitsInt; infer_instance

/-! ## Data model -/

/-- `gitdiff.PatchIdentity`. -/
structure PatchIdentity where
  Name : String
  Email : String
  deriving DecidableEq, Repr

/-- `time.Time`, as far as `FromGit` looks at it: an instant and the offset
of the location it is displayed in. -/
structure Time where
  unixNano : Int
  zoneOffset : Int
  deriving DecidableEq, Repr

/-- `Time.UTC()`: the same instant, displayed in UTC. -/
def Time.UTC (t : Time) : Time := Time.mk t.unixNano 0

/-- `gitdiff.PatchHeader`.  `Author` is a pointer and may be nil. -/
structure PatchHeader where
  SHA : String
  Author : Option PatchIdentity
  AuthorDate : Time
  Title : String
  Body : String
  deriving DecidableEq, Repr

/-- `gitdiff.LineOp`. -/
inductive LineOp
  | OpContext
  | OpDelete
  | OpAdd
  deriving DecidableEq, Repr

/-- `gitdiff.Line`. -/
structure Line where
  Op : LineOp
  Line : String
  deriving DecidableEq, Repr

/-- `gitdiff.TextFragment`: the two fields `FromGit` reads. -/
structure TextFragment where
  NewPosition : Int
  Lines : List Line
  deriving DecidableEq, Repr

/-- `gitdiff.File`.  `PatchHeader` is a pointer (`none` is nil) and
`TextFragments` is a slice (`none` is the nil slice, `some l` a non-nil slice
with the elements `l`, themselves taken to be non-nil pointers). -/
structure File where
  NewName : String
  IsBinary : Bool
  IsDelete : Bool
  PatchHeader : Option PatchHeader
  TextFragments : Option (List TextFragment)
  deriving DecidableEq, Repr

/-- `report.Finding`: the fields `FromGit` reads or writes, `Secret` (which
`Redact` works on) and the rule that fired. -/
structure Finding where
  RuleID : String
  Match : String
  Secret : String
  File : String
  StartLine : Int
  EndLine : Int
  Commit : String
  Message : String
  Author : String
  Email : String
  Date : String
  deriving DecidableEq, Repr

/-- `config.Allowlist`. -/
structure Allowlist where
  Commits : List String
  deriving DecidableEq, Repr

/-- `config.Config`, as far as `FromGit` looks into it. -/
structure Config where
  Allowlist : Allowlist
  deriving DecidableEq, Repr

/-- `detect.Options`. -/
structure Options where
  Verbose : Bool
  Redact : Bool
  deriving DecidableEq, Repr

/-- A `*Detector`: its `Detect(content, filePath, commit)` method. -/
structure Detector where
  Detect : String → String → String → List Finding

/-- The collaborators of `FromGit` that are defined outside `git.go`. -/
structure Env where
  /-- The constant `MAXGOROUTINES`. -/
  MAXGOROUTINES : Nat
  /-- `NewDetector(cfg, verbose, redact)`. -/
  NewDetector : Config → Bool → Bool → Detector
  /-- `(*Allowlist).CommitAllowed`. -/
  CommitAllowed : Allowlist → String → Bool
  /-- `(*Finding).Redact`, as a function from the old to the new value. -/
  Redact : Finding → Finding
  /-- `(*TextFragment).Raw`. -/
  Raw : TextFragment → LineOp → String
  /-- `(*PatchHeader).Message`. -/
  Message : PatchHeader → String
  /-- `Time.Format(time.RFC3339)`. -/
  FormatRFC3339 : Time → String

/-- `strings.HasPrefix`. -/
def HasPrefix (s p : String) : Bool := p.data.isPrefixOf s.data

/-! ## The goroutine started for one diff record -/

/-- What a goroutine does to the world outside its own variables, one
constructor per call site in the body of the goroutine. -/
inductive Event
  /-- A call `detector.Detect(content, filePath, commit)`. -/
  | detect (content filePath commit : String)
  /-- A call `fi.Redact()` on the value `fi`. -/
  | redact (fi : Finding)
  /-- A call `printFinding(fi)`. -/
  | print (fi : Finding)
  /-- The statement `findings = append(findings, fi)`, under the mutex. -/
  | append (fi : Finding)
  deriving DecidableEq, Repr

/-- Lines 67-70: unless the match is that of a file-only rule, both line
numbers are moved by `int(tf.NewPosition)`. -/
def adjustLines (tf : TextFragment) (fi : Finding) : Finding :=
  if !HasPrefix fi.Match "file detected" then
    { fi with
      StartLine := intAdd fi.StartLine (wrapInt tf.NewPosition)
      EndLine := intAdd fi.EndLine (wrapInt tf.NewPosition) }
  else fi

/-- Lines 74-77: author name and email, when the header has an author. -/
def stampAuthor (h : PatchHeader) (fi : Finding) : Finding :=
  match h.Author with
  | some a => { fi with Author := a.Name, Email := a.Email }
  | none => fi

/-- Lines 71-79: the commit the record belongs to, when it has a header. -/
def stampCommit (env : Env) (f : File) (fi : Finding) : Finding :=
  match f.PatchHeader with
  | some h =>
    let fi := { fi with Commit := h.SHA, Message := env.Message h }
    let fi := stampAuthor h fi
    { fi with Date := env.FormatRFC3339 h.AuthorDate.UTC }
  | none => fi

/-- Lines 67-79: the finding after line numbers and commit data are set. -/
def enrich (env : Env) (f : File) (tf : TextFragment) (fi : Finding) : Finding :=
  stampCommit env f (adjustLines tf fi)

/-- Lines 81-83: the finding that goes on to the printer and the slice. -/
def finalize (env : Env) (opts : Options) (f : File) (tf : TextFragment)
    (fi : Finding) : Finding :=
  if opts.Redact then env.Redact (enrich env f tf fi) else enrich env f tf fi

/-- Lines 66-91: one iteration of the inner loop, for the raw match `fi`. -/
def matchEvents (env : Env) (opts : Options) (f : File) (tf : TextFragment)
    (fi : Finding) : List Event :=
  (if opts.Redact then [Event.redact (enrich env f tf fi)] else []) ++
  (if opts.Verbose then [Event.print (finalize env opts f tf fi)] else []) ++
  [Event.append (finalize env opts f tf fi)]

/-- The content handed to the detector for a fragment: its added lines. -/
def addedContent (env : Env) (tf : TextFragment) : String :=
  env.Raw tf LineOp.OpAdd

/-- Line 65 and the loop under it: the detector call for one fragment and
the handling of every match it returns. -/
def fragmentEvents (env : Env) (d : Detector) (opts : Options) (f : File)
    (commitSHA : String) (tf : TextFragment) : List Event :=
  Event.detect (addedContent env tf) f.NewName commitSHA ::
    (d.Detect (addedContent env tf) f.NewName commitSHA).flatMap
      (matchEvents env opts f tf)

/-- Lines 58-93: the loop over `f.TextFragments`, with its nil check. -/
def fragmentLoop (env : Env) (d : Detector) (opts : Options) (f : File)
    (commitSHA : String) : List Event :=
  (f.TextFragments.getD []).flatMap fun tf =>
    if f.TextFragments.isNone then [] else fragmentEvents env d opts f commitSHA tf

/-- Lines 40-93: the body of the goroutine, up to its deferred function. -/
def scanBody (env : Env) (d : Detector) (cfg : Config) (opts : Options)
    (f : File) : List Event :=
  if f.IsBinary then []
  else if f.IsDelete then []
  else
    match f.PatchHeader with
    | some h =>
      if env.CommitAllowed cfg.Allowlist h.SHA then []
      else fragmentLoop env d opts f h.SHA
    | none => fragmentLoop env d opts f ""

/-- The findings in a list of events that are appended to the slice. -/
def appended : List Event → List Finding
  | [] => []
  | Event.append fi :: es => fi :: appended es
  | _ :: es => appended es

/-- The findings in a list of events that are handed to `printFinding`. -/
def printedOf : List Event → List Finding
  | [] => []
  | Event.print fi :: es => fi :: printedOf es
  | _ :: es => printedOf es

/-! ## The dispatching loop and the scheduler -/

/-- A goroutine started at line 35.  `rest` holds what is left of its body;
the two flags record how far its deferred function (lines 36-39) has come. -/
structure Task where
  rest : List Event
  wgDone : Bool
  released : Bool
  deriving DecidableEq, Repr

/-- Where the thread that called `FromGit` stands. -/
inductive MainPC
  /-- At `for f := range files` (line 27). -/
  | recv
  /-- At `concurrentGoroutines <- struct{}{}` (line 34), holding record `f`. -/
  | send (f : File)
  /-- At the `go` statement (line 35), holding record `f`. -/
  | spawn (f : File)
  /-- At `wg.Wait()` (line 98). -/
  | wait
  /-- After `return findings` (line 102). -/
  | returned
  deriving DecidableEq, Repr

/-- The variables of one call of `FromGit` that are shared between threads or
outlive one iteration of the loop. -/
structure State where
  /-- Records still to come out of the channel `files` before it is closed. -/
  files : List File
  pc : MainPC
  commitMap : List String
  /-- The counter of the wait group `wg`. -/
  wg : Int
  /-- The number of elements buffered in `concurrentGoroutines`. -/
  sem : Nat
  /-- The goroutines started so far, in the order they were started. -/
  tasks : List Task
  findings : List Finding
  /-- What `printFinding` has been called with, in order. -/
  printed : List Finding
  deriving DecidableEq, Repr

/-- The state at line 27, before the first record is received. -/
def initState (files : List File) : State :=
  State.mk files MainPC.recv [] 0 0 [] [] []

/-- Lines 29-31: `commitMap[f.PatchHeader.SHA] = true`. -/
def registerCommit (f : File) (m : List String) : List String :=
  match f.PatchHeader with
  | some h => if h.SHA ∈ m then m else h.SHA :: m
  | none => m

/-- One action of the thread running `FromGit`; `none` when it is blocked or
has returned.  `body` is the code of the goroutine it starts.  Receiving a
record and lines 29-33 (the commit map, which only this thread touches, and
`wg.Add(1)`) are one action, the send of line 34 is one, the `go` statement
is one, and so is `wg.Wait()` with the return that follows it. -/
def stepMain (maxG : Nat) (body : File → List Event) (s : State) : Option State :=
  match s.pc with
  | MainPC.recv =>
    match s.files with
    | f :: rest =>
      some { s with
        files := rest
        commitMap := registerCommit f s.commitMap
        wg := s.wg + 1
        pc := MainPC.send f }
    | [] => some { s with pc := MainPC.wait }
  | MainPC.send f =>
    if s.sem < maxG then some { s with sem := s.sem + 1, pc := MainPC.spawn f }
    else none
  | MainPC.spawn f =>
    some { s with tasks := s.tasks ++ [Task.mk (body f) false false], pc := MainPC.recv }
  | MainPC.wait =>
    if s.wg = 0 then some { s with pc := MainPC.returned } else none
  | MainPC.returned => none

/-- The effect of one event of a goroutine on the shared variables.  The
append is one action: it happens with the mutex `mu` held. -/
def applyEvent (e : Event) (s : State) : State :=
  match e with
  | Event.print fi => { s with printed := s.printed ++ [fi] }
  | Event.append fi => { s with findings := s.findings ++ [fi] }
  | _ => s

/-- One action of goroutine `i`: the next event of its body, then
`wg.Done()`, then the receive from `concurrentGoroutines`; `none` when there
is no such goroutine, when it has ended or when it is blocked. -/
def stepTask (s : State) (i : Nat) : Option State :=
  match s.tasks[i]? with
  | none => none
  | some t =>
    match t.rest with
    | e :: es => some (applyEvent e { s with tasks := s.tasks.set i { t with rest := es } })
    | [] =>
      if !t.wgDone then
        some { s with wg := s.wg - 1, tasks := s.tasks.set i { t with wgDone := true } }
      else if !t.released then
        if 0 < s.sem then
          some { s with sem := s.sem - 1, tasks := s.tasks.set i { t with released := true } }
        else none
      else none

/-- The threads a scheduler can pick. -/
inductive Thread
  | main
  | task (i : Nat)
  deriving DecidableEq, Repr

/-- One action of the chosen thread. -/
def step (maxG : Nat) (body : File → List Event) (s : State) : Thread → Option State
  | Thread.main => stepMain maxG body s
  | Thread.task i => stepTask s i

/-- The state after a schedule; a thread that cannot move is passed over. -/
def run (maxG : Nat) (body : File → List Event) (s : State) : List Thread → State
  | [] => s
  | th :: ths => run maxG body ((step maxG body s th).getD s) ths

/-- What the call has returned, once it has. -/
def State.result (s : State) : Option (List Finding) :=
  if s.pc = MainPC.returned then some s.findings else none

/-- The goroutines that were started and have not yet taken their element
back out of `concurrentGoroutines`. -/
def State.inFlight (s : State) : Nat :=
  (s.tasks.filter fun t => !t.released).length

/-- Line 25: the detector all goroutines of one call share. -/
def detectorOf (env : Env) (cfg : Config) (opts : Options) : Detector :=
  env.NewDetector cfg opts.Verbose opts.Redact

/-- The body of the goroutines of `FromGit(files, cfg, outputOptions)`. -/
def taskBody (env : Env) (cfg : Config) (opts : Options) : File → List Event :=
  scanBody env (detectorOf env cfg opts) cfg opts

/-- The state of `FromGit(files, cfg, outputOptions)` after a schedule. -/
def FromGitState (env : Env) (cfg : Config) (opts : Options) (files : List File)
    (sched : List Thread) : State :=
  run env.MAXGOROUTINES (taskBody env cfg opts) (initState files) sched

/-- `FromGit(files, cfg, outputOptions)` under a schedule: the slice it
returns, or `none` when the schedule ends before the call returns. -/
def FromGit (env : Env) (cfg : Config) (opts : Options) (files : List File)
    (sched : List Thread) : Option (List Finding) :=
  (FromGitState env cfg opts files sched).result

/-! ## The vocabulary of the specification -/

/-- The `commitSHA` variable of the goroutine (lines 48-52). -/
def commitSHA (f : File) : String :=
  match f.PatchHeader with
  | some h => h.SHA
  | none => ""

/-- The record is not skipped: it is not binary, not a deletion, and it has
no header or the commit of its header is not allow-listed. -/
def isScanned (env : Env) (cfg : Config) (f : File) : Bool :=
  !f.IsBinary && !f.IsDelete &&
    match f.PatchHeader with
    | some h => !env.CommitAllowed cfg.Allowlist h.SHA
    | none => true

/-- The text fragments of a record, none for the nil slice. -/
def fragments (f : File) : List TextFragment := f.TextFragments.getD []

/-- The raw matches of the detector for a fragment of a record. -/
def rawMatches (env : Env) (d : Detector) (f : File) (tf : TextFragment) : List Finding :=
  d.Detect (addedContent env tf) f.NewName (commitSHA f)

/-- The findings the goroutine of a record appends, in program order. -/
def scanFindings (env : Env) (cfg : Config) (opts : Options) (f : File) : List Finding :=
  appended (taskBody env cfg opts f)

/-- Modelled from the spec: the contract of `(*Finding).Redact`, whose code
is in the `report` package: "a mutating operation on a match that obscures
the sensitive substring while preserving surrounding metadata".  The
metadata are the line numbers and the commit fields. -/
def RedactKeepsMetadata (env : Env) : Prop :=
  ∀ x : Finding,
    (env.Redact x).StartLine = x.StartLine ∧ (env.Redact x).EndLine = x.EndLine ∧
    (env.Redact x).Commit = x.Commit ∧ (env.Redact x).Message = x.Message ∧
    (env.Redact x).Author = x.Author ∧ (env.Redact x).Email = x.Email ∧
    (env.Redact x).Date = x.Date

/-! ## `FromGit` without the nil check of line 59 -/

/-- The loop of lines 58-93 with lines 59-63 taken out. -/
def fragmentLoopNoCheck (env : Env) (d : Detector) (opts : Options) (f : File)
    (commitSHA : String) : List Event :=
  (f.TextFragments.getD []).flatMap fun tf => fragmentEvents env d opts f commitSHA tf

/-- The body of the goroutine with lines 59-63 taken out. -/
def scanBodyNoCheck (env : Env) (d : Detector) (cfg : Config) (opts : Options)
    (f : File) : List Event :=
  if f.IsBinary then []
  else if f.IsDelete then []
  else
    match f.PatchHeader with
    | some h =>
      if env.CommitAllowed cfg.Allowlist h.SHA then []
      else fragmentLoopNoCheck env d opts f h.SHA
    | none => fragmentLoopNoCheck env d opts f ""

/-- `FromGit` with lines 59-63 taken out, under a schedule. -/
def FromGitNoCheck (env : Env) (cfg : Config) (opts : Options) (files : List File)
    (sched : List Thread) : Option (List Finding) :=
  (run env.MAXGOROUTINES (scanBodyNoCheck env (detectorOf env cfg opts) cfg opts)
    (initState files) sched).result

/-! ## Invariant and schedules -/

/-- The records whose goroutine the dispatching thread holds but has not yet
started. -/
def pcFile : MainPC → List File
  | MainPC.send f => [f]
  | MainPC.spawn f => [f]
  | _ => []

/-- The elements put into `concurrentGoroutines` for a goroutine that is not
yet started. -/
def pcSlot : MainPC → Nat
  | MainPC.spawn _ => 1
  | _ => 0

/-- What is still to be appended to `findings`: by the goroutines that run,
and by those still to be started. -/
def outstanding (body : File → List Event) (s : State) : List Finding :=
  s.tasks.flatMap (fun t => appended t.rest) ++
    (pcFile s.pc ++ s.files).flatMap (fun f => appended (body f))

/-- What is still to be printed. -/
def outstandingPrints (body : File → List Event) (s : State) : List Finding :=
  s.tasks.flatMap (fun t => printedOf t.rest) ++
    (pcFile s.pc ++ s.files).flatMap (fun f => printedOf (body f))

/-- The invariant of a call of `FromGit` on the stream `files0`. -/
structure Inv (maxG : Nat) (body : File → List Event) (files0 : List File)
    (s : State) : Prop where
  wg_eq : s.wg = ((s.tasks.filter fun t => !t.wgDone).length : Int) + (pcFile s.pc).length
  sem_eq : s.sem = s.inFlight + pcSlot s.pc
  sem_le : s.sem ≤ maxG
  task_ok : ∀ t ∈ s.tasks, (t.wgDone = true → t.rest = []) ∧ (t.released = true → t.wgDone = true)
  found : (s.findings ++ outstanding body s).Perm (files0.flatMap fun f => appended (body f))
  shown : (s.printed ++ outstandingPrints body s).Perm (files0.flatMap fun f => printedOf (body f))
  closed : s.pc = MainPC.wait ∨ s.pc = MainPC.returned → s.files = []
  joined : s.pc = MainPC.returned → ∀ t ∈ s.tasks, t.wgDone = true

/-- The schedule that lets every goroutine run to its end before the next
record is received: three actions of the dispatching thread per record
(receive, send, `go`), then the whole goroutine; at the end the closed
channel is seen and `wg.Wait()` passed. -/
def seqSchedule (body : File → List Event) : Nat → List File → List Thread
  | _, [] => [Thread.main, Thread.main]
  | k, f :: fs =>
    [Thread.main, Thread.main, Thread.main] ++
      List.replicate ((body f).length + 2) (Thread.task k) ++ seqSchedule body (k + 1) fs

/-- The number of actions a goroutine has still to take. -/
def taskWeight (t : Task) : Nat :=
  t.rest.length + (if t.wgDone then 0 else 1) + (if t.released then 0 else 1)

/-- The number of actions the dispatching thread has still to take for the
record it holds and after the channel is closed, with those of the goroutine
it is about to start. -/
def pcWeight (body : File → List Event) : MainPC → Nat
  | MainPC.recv => 2
  | MainPC.send f => (body f).length + 6
  | MainPC.spawn f => (body f).length + 5
  | MainPC.wait => 1
  | MainPC.returned => 0

/-- The number of actions all threads together have still to take. -/
def stepsLeft (body : File → List Event) (s : State) : Nat :=
  (s.tasks.map taskWeight).sum + pcWeight body s.pc +
    (s.files.map fun f => (body f).length + 5).sum

/-! ## A small instance -/

/-- A raw match at line 2 of its fragment. -/
def exRaw : Finding :=
  Finding.mk "generic-token" "token=abc" "abc" "a.txt" 2 2 "" "" "detector" "" ""

/-- A raw match of a file-only rule. -/
def exFileRaw : Finding :=
  Finding.mk "pem-file" "file detected: id.pem" "" "id.pem" 0 0 "" "" "" "" ""

/-- A detector that knows one secret and one file name. -/
def exDetector : Detector :=
  Detector.mk fun content filePath _ =>
    (if content = "token=abc" then [exRaw] else []) ++
      (if filePath = "id.pem" then [exFileRaw] else [])

/-- An environment with room for four goroutines. -/
def exEnv : Env :=
  { MAXGOROUTINES := 4
    NewDetector := fun _ _ _ => exDetector
    CommitAllowed := fun a sha => a.Commits.contains sha
    Redact := fun fi => { fi with Match := "REDACTED", Secret := "REDACTED" }
    Raw := fun tf op => String.join ((tf.Lines.filter fun l => l.Op = op).map fun l => l.Line)
    Message := fun h => h.Title
    FormatRFC3339 := fun t => if t.unixNano = 0 then "1970-01-01T00:00:00Z" else "later" }

/-- A configuration that allows no commit. -/
def exCfg : Config := Config.mk (Allowlist.mk [])

/-- A configuration that allows the commit `abc`. -/
def exCfgAllow : Config := Config.mk (Allowlist.mk ["abc"])

/-- Neither verbose nor redacting. -/
def exOpts : Options := Options.mk false false

/-- Verbose and redacting. -/
def exOptsRedact : Options := Options.mk true true

/-- The header of commit `abc`, with an author. -/
def exHeader : PatchHeader :=
  PatchHeader.mk "abc" (some (PatchIdentity.mk "Ann" "ann@example.org")) (Time.mk 0 3600)
    "add token" ""

/-- The header of commit `abc`, without an author. -/
def exHeaderNoAuthor : PatchHeader :=
  PatchHeader.mk "abc" none (Time.mk 0 3600) "add token" ""

/-- A fragment that starts at line 10 of the new file and adds one line. -/
def exFragment : TextFragment :=
  TextFragment.mk 10 [Line.mk LineOp.OpContext "x", Line.mk LineOp.OpAdd "token=abc"]

/-- A binary file. -/
def exBinary : File := File.mk "b.bin" true false (some exHeader) (some [exFragment])

/-- A deleted file. -/
def exDeleted : File := File.mk "d.txt" false true (some exHeader) (some [exFragment])

/-- A text file with one fragment. -/
def exNormal : File := File.mk "a.txt" false false (some exHeader) (some [exFragment])

/-- A text file of a commit whose header has no author. -/
def exNoAuthor : File := File.mk "a.txt" false false (some exHeaderNoAuthor) (some [exFragment])

/-- A file whose name a file-only rule knows, without a header. -/
def exPem : File := File.mk "id.pem" false false none (some [exFragment])

/-- A text file whose fragment slice is nil. -/
def exNilFragments : File := File.mk "n.txt" false false (some exHeader) none

/-! ## Facts about schedules -/

theorem set_split {ts : List Task} {i : Nat} {t : Task} (h : ts[i]? = some t)
    (t' : Task) : ∃ pre post, ts = pre ++ t :: post ∧ ts.set i t' = pre ++ t' :: post := by
  induction ts generalizing i with
  | nil => simp at h
  | cons a as ih =>
    cases i with
    | zero =>
      simp at h
      exact ⟨[], as, by simp [h], by simp⟩
    | succ j =>
      simp at h
      obtain ⟨pre, post, h1, h2⟩ := ih h
      exact ⟨a :: pre, post, by simp [h1], by simp [h2]⟩

theorem Inv_init (maxG : Nat) (body : File → List Event) (files0 : List File) :
    Inv maxG body files0 (initState files0) := by
  constructor <;> simp [initState, pcFile, pcSlot, State.inFlight, outstanding, outstandingPrints]

theorem Inv_stepMain {maxG : Nat} {body : File → List Event} {files0 : List File}
    {s s' : State} (hs : Inv maxG body files0 s) (h : stepMain maxG body s = some s') :
    Inv maxG body files0 s' := by
  obtain ⟨h1, h2, h3, h4, h5, h6, h7, h8⟩ := hs
  unfold stepMain at h
  split at h
  · split at h
    · cases h
      rename_i hpc f rest hf
      constructor <;>
        simp_all [pcFile, pcSlot, State.inFlight, outstanding, outstandingPrints]
    · cases h
      rename_i hpc hf
      constructor <;>
        simp_all [pcFile, pcSlot, State.inFlight, outstanding, outstandingPrints]
  · split at h
    · cases h
      rename_i f hpc hlt
      constructor <;>
        simp_all [pcFile, pcSlot, State.inFlight, outstanding, outstandingPrints]
      omega
    · cases h
  · cases h
    rename_i f hpc
    constructor <;>
      simp_all [pcFile, pcSlot, State.inFlight, outstanding, outstandingPrints, List.filter_append]
    rintro t (ht | rfl)
    · exact h4 t ht
    · simp
  · split at h
    · cases h
      rename_i hpc hwg
      constructor <;>
        simp_all [pcFile, pcSlot, State.inFlight, outstanding, outstandingPrints]
      have h0 : (List.filter (fun t => !t.wgDone) s.tasks) = [] :=
        List.length_eq_zero.mp (by omega)
      intro t ht
      have := (List.filter_eq_nil_iff.mp h0) t ht
      simpa using this
    · cases h
  · cases h


theorem appended_cons (e : Event) (es : List Event) :
    appended (e :: es) = appended [e] ++ appended es := by
  cases e <;> simp [appended]

theorem printedOf_cons (e : Event) (es : List Event) :
    printedOf (e :: es) = printedOf [e] ++ printedOf es := by
  cases e <;> simp [printedOf]

theorem applyEvent_eq (e : Event) (s : State) :
    applyEvent e s =
      { s with findings := s.findings ++ appended [e], printed := s.printed ++ printedOf [e] } := by
  cases e <;> simp [applyEvent, appended, printedOf]

/-- The three kinds of action of a goroutine. -/
theorem stepTask_cases {s s' : State} {i : Nat} (h : stepTask s i = some s') :
    ∃ t pre post, s.tasks = pre ++ t :: post ∧
      ((∃ e es, t.rest = e :: es ∧
          s' = { s with
            tasks := pre ++ { t with rest := es } :: post
            findings := s.findings ++ appended [e]
            printed := s.printed ++ printedOf [e] }) ∨
       (t.rest = [] ∧ t.wgDone = false ∧
          s' = { s with wg := s.wg - 1, tasks := pre ++ { t with wgDone := true } :: post }) ∨
       (t.rest = [] ∧ t.wgDone = true ∧ t.released = false ∧ 0 < s.sem ∧
          s' = { s with sem := s.sem - 1, tasks := pre ++ { t with released := true } :: post })) := by
  unfold stepTask at h
  split at h
  · cases h
  · rename_i t ht
    split at h
    · rename_i e es hrest
      obtain ⟨pre, post, hts, hset⟩ := set_split ht { t with rest := es }
      refine ⟨t, pre, post, hts, Or.inl ⟨e, es, hrest, ?_⟩⟩
      rw [hset, applyEvent_eq] at h
      exact (Option.some.inj h).symm
    · rename_i hrest
      split at h
      · rename_i hw
        obtain ⟨pre, post, hts, hset⟩ := set_split ht { t with wgDone := true }
        refine ⟨t, pre, post, hts, Or.inr (Or.inl ⟨hrest, by simpa using hw, ?_⟩)⟩
        rw [hset] at h
        exact (Option.some.inj h).symm
      · rename_i hw
        split at h
        · rename_i hr
          split at h
          · rename_i hsem
            obtain ⟨pre, post, hts, hset⟩ := set_split ht { t with released := true }
            refine ⟨t, pre, post, hts,
              Or.inr (Or.inr ⟨hrest, by simpa using hw, by simpa using hr, hsem, ?_⟩)⟩
            rw [hset] at h
            exact (Option.some.inj h).symm
          · cases h
        · cases h

theorem perm_move (a b p d q x : List Finding) :
    ((a ++ b) ++ ((p ++ (d ++ q)) ++ x)).Perm (a ++ ((p ++ (b ++ d ++ q)) ++ x)) := by
  rw [List.perm_iff_count]
  intro x
  simp only [List.count_append]
  omega

theorem Inv_stepTask {maxG : Nat} {body : File → List Event} {files0 : List File}
    {s s' : State} {i : Nat} (hs : Inv maxG body files0 s) (h : stepTask s i = some s') :
    Inv maxG body files0 s' := by
  obtain ⟨h1, h2, h3, h4, h5, h6, h7, h8⟩ := hs
  obtain ⟨t, pre, post, hts, hc⟩ := stepTask_cases h
  obtain ⟨files, pc, cm, wg, sem, tasks, findings, printed⟩ := s
  simp only at hts
  subst hts
  have ht4 := h4 t (by simp)
  simp only [State.inFlight, outstanding, outstandingPrints, List.filter_append,
    List.filter_cons, List.flatMap_append, List.flatMap_cons, List.length_append] at h1 h2 h5 h6
  rcases hc with ⟨e, es, hrest, rfl⟩ | ⟨hrest, hw, rfl⟩ | ⟨hrest, hw, hr, hsem, rfl⟩
  · have hwd : t.wgDone = false := by
      cases hw : t.wgDone with
      | false => rfl
      | true => simp [ht4.1 hw] at hrest
    have hrl : t.released = false := by
      cases hr : t.released with
      | false => rfl
      | true => simp [ht4.2 hr] at hwd
    constructor
    all_goals simp only [State.inFlight, outstanding, outstandingPrints, List.filter_append,
        List.filter_cons, List.flatMap_append, List.flatMap_cons, List.length_append]
    · simpa [hwd] using h1
    · simpa [hrl] using h2
    · exact h3
    · intro u hu
      simp only [List.mem_append, List.mem_cons] at hu
      rcases hu with hu | rfl | hu
      · exact h4 u (by simp [hu])
      · simp [hwd, hrl]
      · exact h4 u (by simp [hu])
    · rw [hrest, appended_cons] at h5
      exact (perm_move _ _ _ _ _ _).trans h5
    · rw [hrest, printedOf_cons] at h6
      exact (perm_move _ _ _ _ _ _).trans h6
    · exact h7
    · intro hp u hu
      simp only [List.mem_append, List.mem_cons] at hu
      rcases hu with hu | rfl | hu
      · exact h8 hp u (by simp [hu])
      · have := h8 hp t (by simp)
        simp [this] at hwd
      · exact h8 hp u (by simp [hu])
  · have hrl : t.released = false := by
      cases hr : t.released with
      | false => rfl
      | true => simp [ht4.2 hr] at hw
    constructor
    all_goals simp only [State.inFlight, outstanding, outstandingPrints, List.filter_append,
        List.filter_cons, List.flatMap_append, List.flatMap_cons, List.length_append]
    · simp [hw] at h1 ⊢
      omega
    · simpa [hrl] using h2
    · exact h3
    · intro u hu
      simp only [List.mem_append, List.mem_cons] at hu
      rcases hu with hu | rfl | hu
      · exact h4 u (by simp [hu])
      · simp [hrest, hrl]
      · exact h4 u (by simp [hu])
    · exact h5
    · exact h6
    · exact h7
    · intro hp u hu
      simp only [List.mem_append, List.mem_cons] at hu
      rcases hu with hu | rfl | hu
      · exact h8 hp u (by simp [hu])
      · rfl
      · exact h8 hp u (by simp [hu])
  · constructor
    all_goals simp only [State.inFlight, outstanding, outstandingPrints, List.filter_append,
        List.filter_cons, List.flatMap_append, List.flatMap_cons, List.length_append]
    · simpa [hw] using h1
    · simp [hr] at h2 ⊢
      omega
    · exact le_trans (Nat.sub_le _ _) h3
    · intro u hu
      simp only [List.mem_append, List.mem_cons] at hu
      rcases hu with hu | rfl | hu
      · exact h4 u (by simp [hu])
      · simp [hrest, hw]
      · exact h4 u (by simp [hu])
    · exact h5
    · exact h6
    · exact h7
    · intro hp u hu
      simp only [List.mem_append, List.mem_cons] at hu
      rcases hu with hu | rfl | hu
      · exact h8 hp u (by simp [hu])
      · exact hw
      · exact h8 hp u (by simp [hu])

theorem Inv_run {maxG : Nat} {body : File → List Event} {files0 : List File}
    (sched : List Thread) {s : State} (hs : Inv maxG body files0 s) :
    Inv maxG body files0 (run maxG body s sched) := by
  induction sched generalizing s with
  | nil => exact hs
  | cons th ths ih =>
    apply ih
    cases hstep : step maxG body s th with
    | none => simpa using hs
    | some s' =>
      simp only [Option.getD_some]
      cases th with
      | main => exact Inv_stepMain hs hstep
      | task i => exact Inv_stepTask hs hstep

theorem Inv_result {maxG : Nat} {body : File → List Event} {files0 : List File}
    {s : State} (hs : Inv maxG body files0 s) (hp : s.pc = MainPC.returned) :
    s.findings.Perm (files0.flatMap fun f => appended (body f)) ∧
      s.printed.Perm (files0.flatMap fun f => printedOf (body f)) := by
  have hf := hs.closed (Or.inr hp)
  have ht : ∀ t ∈ s.tasks, t.rest = [] := fun t h => (hs.task_ok t h).1 (hs.joined hp t h)
  have h1 : (s.tasks.flatMap fun t => appended t.rest) = [] := by
    rw [List.flatMap_eq_nil_iff]
    intro t h
    rw [ht t h]; rfl
  have h2 : (s.tasks.flatMap fun t => printedOf t.rest) = [] := by
    rw [List.flatMap_eq_nil_iff]
    intro t h
    rw [ht t h]; rfl
  have hfound := hs.found
  have hshown := hs.shown
  simp only [outstanding, outstandingPrints, hf, hp, pcFile, h1, h2, List.append_nil,
    List.flatMap_nil] at hfound hshown
  exact ⟨hfound, hshown⟩

theorem Inv_inFlight {maxG : Nat} {body : File → List Event} {files0 : List File}
    {s : State} (hs : Inv maxG body files0 s) : s.inFlight ≤ maxG := by
  have h1 := hs.sem_eq
  have h2 := hs.sem_le
  omega

theorem run_append (maxG : Nat) (body : File → List Event) (s : State)
    (a b : List Thread) : run maxG body s (a ++ b) = run maxG body (run maxG body s a) b := by
  induction a generalizing s with
  | nil => rfl
  | cons th ths ih => simp [run, ih]

theorem run_task_body (maxG : Nat) (body : File → List Event) (es : List Event)
    (files : List File) (pc : MainPC) (cm : List String) (wg : Int) (sem : Nat)
    (pre : List Task) (fnd prt : List Finding) :
    run maxG body (State.mk files pc cm wg sem (pre ++ [Task.mk es false false]) fnd prt)
        (List.replicate es.length (Thread.task pre.length)) =
      State.mk files pc cm wg sem (pre ++ [Task.mk [] false false])
        (fnd ++ appended es) (prt ++ printedOf es) := by
  induction es generalizing fnd prt with
  | nil => simp [run, appended, printedOf]
  | cons e es ih =>
    have hstep : step maxG body
        (State.mk files pc cm wg sem (pre ++ [Task.mk (e :: es) false false]) fnd prt)
        (Thread.task pre.length) =
        some (State.mk files pc cm wg sem (pre ++ [Task.mk es false false])
          (fnd ++ appended [e]) (prt ++ printedOf [e])) := by
      simp [step, stepTask, applyEvent_eq]
    simp only [List.length_cons, List.replicate_succ, run, hstep, Option.getD_some]
    rw [ih, appended_cons e es, printedOf_cons e es]
    simp

theorem run_record (maxG : Nat) (hG : 0 < maxG) (body : File → List Event) (f : File)
    (files : List File) (cm : List String) (pre : List Task) (fnd prt : List Finding) :
    run maxG body (State.mk (f :: files) MainPC.recv cm 0 0 pre fnd prt)
        ([Thread.main, Thread.main, Thread.main] ++
          List.replicate ((body f).length + 2) (Thread.task pre.length)) =
      State.mk files MainPC.recv (registerCommit f cm) 0 0 (pre ++ [Task.mk [] true true])
        (fnd ++ appended (body f)) (prt ++ printedOf (body f)) := by
  rw [run_append, List.replicate_add, run_append]
  have h3 : run maxG body (State.mk (f :: files) MainPC.recv cm 0 0 pre fnd prt)
      [Thread.main, Thread.main, Thread.main] =
      State.mk files MainPC.recv (registerCommit f cm) 1 1
        (pre ++ [Task.mk (body f) false false]) fnd prt := by
    simp [run, step, stepMain, hG]
  rw [h3, run_task_body]
  simp [run, step, stepTask]

theorem run_seqSchedule (maxG : Nat) (hG : 0 < maxG) (body : File → List Event)
    (files : List File) (cm : List String) (pre : List Task) (fnd prt : List Finding) :
    ∃ cm' ts, run maxG body (State.mk files MainPC.recv cm 0 0 pre fnd prt)
        (seqSchedule body pre.length files) =
      State.mk [] MainPC.returned cm' 0 0 ts
        (fnd ++ files.flatMap fun f => appended (body f))
        (prt ++ files.flatMap fun f => printedOf (body f)) := by
  induction files generalizing cm pre fnd prt with
  | nil => exact ⟨cm, pre, by simp [seqSchedule, run, step, stepMain]⟩
  | cons f fs ih =>
    obtain ⟨cm', ts, h⟩ := ih (registerCommit f cm) (pre ++ [Task.mk [] true true])
      (fnd ++ appended (body f)) (prt ++ printedOf (body f))
    refine ⟨cm', ts, ?_⟩
    rw [seqSchedule, run_append, run_record maxG hG]
    simp only [List.length_append, List.length_singleton] at h
    rw [h]
    simp

/-! ## Facts about machine integers -/

theorem wrapInt_of_fits {x : Int} (h : fitsInt x) : wrapInt x = x := by
  unfold fitsInt at h
  unfold wrapInt
  omega

theorem intAdd_wrapInt (a b : Int) : intAdd a (wrapInt b) = intAdd a b := by
  unfold intAdd wrapInt
  omega

theorem intAdd_of_fits {a b : Int} (h : fitsInt (a + b)) : intAdd a b = a + b := by
  rw [intAdd, wrapInt_of_fits h]

/-! ## Facts about the goroutine -/

theorem appended_append (a b : List Event) : appended (a ++ b) = appended a ++ appended b := by
  induction a with
  | nil => rfl
  | cons e es ih => rw [List.cons_append, appended_cons, appended_cons e es, ih, List.append_assoc]

theorem printedOf_append (a b : List Event) :
    printedOf (a ++ b) = printedOf a ++ printedOf b := by
  induction a with
  | nil => rfl
  | cons e es ih =>
    rw [List.cons_append, printedOf_cons, printedOf_cons e es, ih, List.append_assoc]

theorem appended_flatMap {α : Type} (l : List α) (g : α → List Event) :
    appended (l.flatMap g) = l.flatMap fun a => appended (g a) := by
  induction l with
  | nil => rfl
  | cons a as ih => simp [List.flatMap_cons, appended_append, ih]

theorem printedOf_flatMap {α : Type} (l : List α) (g : α → List Event) :
    printedOf (l.flatMap g) = l.flatMap fun a => printedOf (g a) := by
  induction l with
  | nil => rfl
  | cons a as ih => simp [List.flatMap_cons, printedOf_append, ih]

theorem flatMap_single {α β : Type} (l : List α) (g : α → β) :
    (l.flatMap fun a => [g a]) = l.map g := by
  induction l with
  | nil => rfl
  | cons a as ih => simp [List.flatMap_cons, ih]

theorem appended_matchEvents (env : Env) (opts : Options) (f : File) (tf : TextFragment)
    (fi : Finding) : appended (matchEvents env opts f tf fi) = [finalize env opts f tf fi] := by
  unfold matchEvents
  cases opts.Redact <;> cases opts.Verbose <;> simp [appended]

theorem printedOf_matchEvents (env : Env) (opts : Options) (f : File) (tf : TextFragment)
    (fi : Finding) :
    printedOf (matchEvents env opts f tf fi) =
      if opts.Verbose then [finalize env opts f tf fi] else [] := by
  unfold matchEvents
  cases opts.Redact <;> cases opts.Verbose <;> simp [printedOf]

theorem appended_fragmentEvents (env : Env) (d : Detector) (opts : Options) (f : File)
    (sha : String) (tf : TextFragment) :
    appended (fragmentEvents env d opts f sha tf) =
      (d.Detect (addedContent env tf) f.NewName sha).map (finalize env opts f tf) := by
  unfold fragmentEvents
  rw [appended_cons, appended_flatMap]
  simp [appended, appended_matchEvents, flatMap_single]

theorem printedOf_fragmentEvents (env : Env) (d : Detector) (opts : Options) (f : File)
    (sha : String) (tf : TextFragment) :
    printedOf (fragmentEvents env d opts f sha tf) =
      if opts.Verbose then
        (d.Detect (addedContent env tf) f.NewName sha).map (finalize env opts f tf)
      else [] := by
  unfold fragmentEvents
  rw [printedOf_cons, printedOf_flatMap]
  cases hv : opts.Verbose <;>
    simp [printedOf, printedOf_matchEvents, hv, flatMap_single]

theorem fragmentLoop_eq (env : Env) (d : Detector) (opts : Options) (f : File)
    (sha : String) :
    fragmentLoop env d opts f sha =
      (fragments f).flatMap (fragmentEvents env d opts f sha) := by
  unfold fragmentLoop fragments
  cases f.TextFragments <;> simp

/-- The body of the goroutine, in the vocabulary of the specification. -/
theorem scanBody_eq (env : Env) (d : Detector) (cfg : Config) (opts : Options) (f : File) :
    scanBody env d cfg opts f =
      if isScanned env cfg f then
        (fragments f).flatMap (fragmentEvents env d opts f (commitSHA f))
      else [] := by
  unfold scanBody isScanned commitSHA
  cases f.IsBinary <;> cases f.IsDelete <;> cases f.PatchHeader <;>
    simp [fragmentLoop_eq]
  rename_i h
  cases env.CommitAllowed cfg.Allowlist h.SHA <;> simp

theorem appended_scanBody (env : Env) (d : Detector) (cfg : Config) (opts : Options)
    (f : File) :
    appended (scanBody env d cfg opts f) =
      if isScanned env cfg f then
        (fragments f).flatMap fun tf => (rawMatches env d f tf).map (finalize env opts f tf)
      else [] := by
  rw [scanBody_eq]
  split
  · rw [appended_flatMap]
    simp [appended_fragmentEvents, rawMatches]
  · rfl

theorem printedOf_scanBody (env : Env) (d : Detector) (cfg : Config) (opts : Options)
    (f : File) :
    printedOf (scanBody env d cfg opts f) =
      if opts.Verbose then appended (scanBody env d cfg opts f) else [] := by
  rw [appended_scanBody, scanBody_eq]
  split
  · rw [printedOf_flatMap]
    cases hv : opts.Verbose <;> simp [printedOf_fragmentEvents, rawMatches, hv]
  · simp [printedOf]

/-! ## What `FromGit` returns -/

theorem FromGit_inv (env : Env) (cfg : Config) (opts : Options) (files : List File)
    (sched : List Thread) :
    Inv env.MAXGOROUTINES (taskBody env cfg opts) files (FromGitState env cfg opts files sched) :=
  Inv_run sched (Inv_init _ _ _)

/-- Whatever the schedule, the slice returned holds the findings of the
goroutines of all records, each as often as it was appended. -/
theorem FromGit_perm {env : Env} {cfg : Config} {opts : Options} {files : List File}
    {sched : List Thread} {res : List Finding}
    (h : FromGit env cfg opts files sched = some res) :
    res.Perm (files.flatMap (scanFindings env cfg opts)) := by
  unfold FromGit State.result at h
  split at h
  · rename_i hp
    cases h
    exact (Inv_result (FromGit_inv env cfg opts files sched) hp).1
  · cases h

/-- With room for at least one goroutine, the call returns under the
schedule `seqSchedule`. -/
theorem FromGit_seqSchedule (env : Env) (cfg : Config) (opts : Options) (files : List File)
    (hG : 0 < env.MAXGOROUTINES) :
    FromGit env cfg opts files (seqSchedule (taskBody env cfg opts) 0 files) =
      some (files.flatMap (scanFindings env cfg opts)) := by
  obtain ⟨cm, ts, h⟩ := run_seqSchedule env.MAXGOROUTINES hG (taskBody env cfg opts) files
    [] [] [] []
  unfold FromGit FromGitState initState
  simp only [List.length_nil] at h
  rw [h]
  simp only [State.result, List.nil_append, if_true]
  rfl

/-- At every moment, what is in `findings` was appended by the goroutine of
a record of the stream. -/
theorem FromGitState_findings {env : Env} {cfg : Config} {opts : Options}
    {files : List File} {sched : List Thread} {fi : Finding}
    (h : fi ∈ (FromGitState env cfg opts files sched).findings) :
    fi ∈ files.flatMap (scanFindings env cfg opts) := by
  have hp := (FromGit_inv env cfg opts files sched).found
  exact hp.subset (List.mem_append_left _ h)

theorem FromGitState_printed {env : Env} {cfg : Config} {opts : Options}
    {files : List File} {sched : List Thread} {fi : Finding}
    (h : fi ∈ (FromGitState env cfg opts files sched).printed) :
    fi ∈ files.flatMap fun f => printedOf (taskBody env cfg opts f) := by
  have hp := (FromGit_inv env cfg opts files sched).shown
  exact hp.subset (List.mem_append_left _ h)

/-! ## Every run can be completed -/

theorem stepMain_stepsLeft {maxG : Nat} {body : File → List Event} {s s' : State}
    (h : stepMain maxG body s = some s') : stepsLeft body s' + 1 = stepsLeft body s := by
  obtain ⟨files, pc, cm, wg, sem, tasks, findings, printed⟩ := s
  unfold stepMain at h
  cases pc with
  | recv =>
    cases files with
    | nil =>
      simp only [Option.some.injEq] at h
      subst h
      simp [stepsLeft, pcWeight]
    | cons f rest =>
      simp only [Option.some.injEq] at h
      subst h
      simp [stepsLeft, pcWeight]
      omega
  | send f =>
    simp only at h
    split at h
    · simp only [Option.some.injEq] at h
      subst h
      simp [stepsLeft, pcWeight]
      omega
    · cases h
  | spawn f =>
    simp only [Option.some.injEq] at h
    subst h
    simp [stepsLeft, pcWeight, taskWeight]
    omega
  | wait =>
    simp only at h
    split at h
    · simp only [Option.some.injEq] at h
      subst h
      simp [stepsLeft, pcWeight]
      omega
    · cases h
  | returned => cases h

theorem stepTask_stepsLeft {body : File → List Event} {s s' : State} {i : Nat}
    (h : stepTask s i = some s') : stepsLeft body s' + 1 = stepsLeft body s := by
  obtain ⟨t, pre, post, hts, hc⟩ := stepTask_cases h
  obtain ⟨files, pc, cm, wg, sem, tasks, findings, printed⟩ := s
  simp only at hts
  subst hts
  obtain ⟨rest, wd, rel⟩ := t
  rcases hc with ⟨e, es, hrest, rfl⟩ | ⟨hrest, hw, rfl⟩ | ⟨hrest, hw, hr, hsem, rfl⟩
  · simp only at hrest
    subst hrest
    simp [stepsLeft, taskWeight]
    omega
  · simp only at hw
    subst hw
    simp [stepsLeft, taskWeight]
    omega
  · simp only at hr
    subst hr
    simp [stepsLeft, taskWeight]
    omega

/-- Unless the call has returned, some thread can take a step. -/
theorem Inv_progress {maxG : Nat} {body : File → List Event} {files0 : List File}
    {s : State} (hs : Inv maxG body files0 s) (hG : 0 < maxG)
    (hp : s.pc ≠ MainPC.returned) : ∃ th s', step maxG body s th = some s' := by
  by_cases hfl : s.inFlight = 0
  · have hrel : ∀ t ∈ s.tasks, t.released = true := by
      intro t ht
      have h0 : (s.tasks.filter fun t => !t.released) = [] := List.length_eq_zero.mp hfl
      have := (List.filter_eq_nil_iff.mp h0) t ht
      simpa using this
    have hwd : (s.tasks.filter fun t => !t.wgDone) = [] := by
      rw [List.filter_eq_nil_iff]
      intro t ht
      simp [(hs.task_ok t ht).2 (hrel t ht)]
    have hwg := hs.wg_eq
    have hsem := hs.sem_eq
    rw [hwd] at hwg
    rw [hfl] at hsem
    refine ⟨Thread.main, ?_⟩
    obtain ⟨files, pc, cm, wg, sem, tasks, findings, printed⟩ := s
    simp only [step, stepMain]
    cases pc with
    | recv => cases files <;> simp
    | send f =>
      simp only [pcSlot] at hsem
      simp at hsem
      simp [hsem, hG]
    | spawn f => simp
    | wait =>
      simp only [pcFile] at hwg
      simp at hwg
      simp [hwg]
    | returned => exact absurd rfl hp
  · have hne : (s.tasks.filter fun t => !t.released) ≠ [] := by
      intro h0
      exact hfl (by unfold State.inFlight; rw [h0]; rfl)
    obtain ⟨t, ht⟩ := List.exists_mem_of_ne_nil _ hne
    obtain ⟨hmem, hrel⟩ := List.mem_filter.mp ht
    obtain ⟨i, hi⟩ := List.mem_iff_getElem?.mp hmem
    have hpos : 0 < s.sem := by
      have h2 := hs.sem_eq
      omega
    refine ⟨Thread.task i, ?_⟩
    obtain ⟨rest, wd, rel⟩ := t
    simp only [Bool.not_eq_true', Bool.not_eq_eq_eq_not, Bool.not_true] at hrel
    subst hrel
    simp only [step]
    unfold stepTask
    rw [hi]
    cases rest with
    | cons e es => simp
    | nil => cases wd <;> simp [hpos]

/-- From every state of a call, the threads can be scheduled so that the
call returns. -/
theorem Inv_completes {maxG : Nat} {body : File → List Event} {files0 : List File}
    (hG : 0 < maxG) (n : Nat) :
    ∀ s : State, stepsLeft body s = n → Inv maxG body files0 s →
      ∃ sched, (run maxG body s sched).pc = MainPC.returned := by
  induction n using Nat.strong_induction_on with
  | _ n ih =>
    intro s hn hs
    by_cases hp : s.pc = MainPC.returned
    · exact ⟨[], hp⟩
    · obtain ⟨th, s', hstep⟩ := Inv_progress hs hG hp
      have hlt : stepsLeft body s' + 1 = stepsLeft body s := by
        cases th with
        | main => exact stepMain_stepsLeft hstep
        | task i => exact stepTask_stepsLeft hstep
      have hs' : Inv maxG body files0 s' := by
        cases th with
        | main => exact Inv_stepMain hs hstep
        | task i => exact Inv_stepTask hs hstep
      obtain ⟨sched, hsched⟩ := ih (stepsLeft body s') (by omega) s' rfl hs'
      exact ⟨th :: sched, by simp [run, hstep, hsched]⟩

/-- With room for at least one goroutine, every run of `FromGit` can be
continued so that the call returns. -/
theorem FromGit_completes (env : Env) (cfg : Config) (opts : Options) (files : List File)
    (hG : 0 < env.MAXGOROUTINES) (sched : List Thread) :
    ∃ sched' res, FromGit env cfg opts files (sched ++ sched') = some res := by
  obtain ⟨sched', h⟩ := Inv_completes hG _ _ rfl (FromGit_inv env cfg opts files sched)
  refine ⟨sched', (FromGitState env cfg opts files (sched ++ sched')).findings, ?_⟩
  unfold FromGit State.result
  unfold FromGitState at h ⊢
  rw [run_append, if_pos h]

/-! ## Consequences for the returned slice -/

theorem FromGit_nil {env : Env} {cfg : Config} {opts : Options} {files : List File}
    (h : ∀ g ∈ files, scanFindings env cfg opts g = []) :
    (∀ sched res, FromGit env cfg opts files sched = some res → res = []) ∧
      (0 < env.MAXGOROUTINES →
        ∀ sched, ∃ sched', FromGit env cfg opts files (sched ++ sched') = some []) := by
  have h0 : files.flatMap (scanFindings env cfg opts) = [] :=
    List.flatMap_eq_nil_iff.mpr h
  have hnil : ∀ sched res, FromGit env cfg opts files sched = some res → res = [] := by
    intro sched res hres
    have hp := FromGit_perm hres
    rw [h0] at hp
    exact hp.eq_nil
  refine ⟨hnil, fun hG sched => ?_⟩
  obtain ⟨sched', res, hres⟩ := FromGit_completes env cfg opts files hG sched
  exact ⟨sched', by rw [hres, hnil _ res hres]⟩

theorem mem_scanFindings {env : Env} {cfg : Config} {opts : Options} {f : File}
    {fi : Finding} :
    fi ∈ scanFindings env cfg opts f ↔
      isScanned env cfg f = true ∧ ∃ tf ∈ fragments f,
        ∃ raw ∈ rawMatches env (detectorOf env cfg opts) f tf,
          fi = finalize env opts f tf raw := by
  unfold scanFindings taskBody
  rw [appended_scanBody]
  split
  · rename_i hs
    simp only [List.mem_flatMap, List.mem_map, hs, true_and]
    constructor
    · rintro ⟨tf, htf, raw, hraw, rfl⟩
      exact ⟨tf, htf, raw, hraw, rfl⟩
    · rintro ⟨tf, htf, raw, hraw, rfl⟩
      exact ⟨tf, htf, raw, hraw, rfl⟩
  · rename_i hs
    simp [hs]

/-- The findings in the returned slice are the finalized raw matches of the
fragments of the scanned records. -/
theorem FromGit_mem {env : Env} {cfg : Config} {opts : Options} {files : List File}
    {sched : List Thread} {res : List Finding}
    (h : FromGit env cfg opts files sched = some res) (fi : Finding) :
    fi ∈ res ↔ ∃ f ∈ files, isScanned env cfg f = true ∧ ∃ tf ∈ fragments f,
      ∃ raw ∈ rawMatches env (detectorOf env cfg opts) f tf,
        fi = finalize env opts f tf raw := by
  rw [(FromGit_perm h).mem_iff, List.mem_flatMap]
  constructor
  · rintro ⟨f, hf, hfi⟩
    exact ⟨f, hf, mem_scanFindings.mp hfi⟩
  · rintro ⟨f, hf, hfi⟩
    exact ⟨f, hf, mem_scanFindings.mpr hfi⟩

theorem stampAuthor_lines (h : PatchHeader) (fi : Finding) :
    (stampAuthor h fi).StartLine = fi.StartLine ∧ (stampAuthor h fi).EndLine = fi.EndLine := by
  unfold stampAuthor
  cases h.Author <;> simp

theorem stampCommit_lines (env : Env) (f : File) (fi : Finding) :
    (stampCommit env f fi).StartLine = fi.StartLine ∧
      (stampCommit env f fi).EndLine = fi.EndLine := by
  unfold stampCommit
  cases f.PatchHeader with
  | none => simp
  | some h => simp [stampAuthor_lines]

theorem finalize_lines {env : Env} {opts : Options}
    (hR : opts.Redact = true → RedactKeepsMetadata env) (f : File) (tf : TextFragment)
    (fi : Finding) :
    (finalize env opts f tf fi).StartLine = (adjustLines tf fi).StartLine ∧
      (finalize env opts f tf fi).EndLine = (adjustLines tf fi).EndLine := by
  unfold finalize enrich
  split
  · rename_i hr
    have h := hR hr (stampCommit env f (adjustLines tf fi))
    rw [h.1, h.2.1]
    exact stampCommit_lines _ _ _
  · exact stampCommit_lines _ _ _

/-! ## The claims -/

/-- C1: the goroutine of a record with `IsBinary` or `IsDelete` set returns
at once: its body has no event, so it calls the detector for nothing and
appends nothing; and when every record of the stream is such a record, the
slice `FromGit` returns is empty whatever the schedule, and every run can be
continued to one in which the call returns as soon as `MAXGOROUTINES` is
positive. -/
theorem C1_binary_or_deleted_empty (env : Env) (cfg : Config) (opts : Options)
    (d : Detector) (f : File) (h : f.IsBinary = true ∨ f.IsDelete = true) :
    scanBody env d cfg opts f = [] ∧
      ∀ files : List File, (∀ g ∈ files, g.IsBinary = true ∨ g.IsDelete = true) →
        (∀ sched res, FromGit env cfg opts files sched = some res → res = []) ∧
        (0 < env.MAXGOROUTINES →
          ∀ sched, ∃ sched', FromGit env cfg opts files (sched ++ sched') = some []) := by
  have key : ∀ (d : Detector) (g : File), g.IsBinary = true ∨ g.IsDelete = true →
      scanBody env d cfg opts g = [] := by
    intro d g hg
    unfold scanBody
    rcases hg with hg | hg
    · simp [hg]
    · simp [hg]
  refine ⟨key d f h, fun files hfiles => FromGit_nil ?_⟩
  intro g hg
  unfold scanFindings taskBody
  rw [key _ g (hfiles g hg)]
  rfl

theorem C1_witness :
    (exBinary.IsBinary = true ∨ exBinary.IsDelete = true) ∧
      scanBody exEnv exDetector exCfg exOpts exBinary = [] :=
  ⟨Or.inl rfl, (C1_binary_or_deleted_empty exEnv exCfg exOpts exDetector exBinary (Or.inl rfl)).1⟩

/-- C2: the goroutine of a record whose header names an allow-listed commit
has no event, whatever its fragments hold and whatever the detector would
return for them; so a stream of two records that name the same allow-listed
commit yields the empty slice under every schedule, and every run on it can
be continued to one in which the call returns as soon as `MAXGOROUTINES` is
positive. -/
theorem C2_allowlisted_commit_empty (env : Env) (cfg : Config) (opts : Options)
    (d : Detector) (f : File) (h : PatchHeader) (hh : f.PatchHeader = some h)
    (ha : env.CommitAllowed cfg.Allowlist h.SHA = true) :
    scanBody env d cfg opts f = [] ∧
      ∀ (g : File) (hg : PatchHeader), g.PatchHeader = some hg → hg.SHA = h.SHA →
        (∀ sched res, FromGit env cfg opts [f, g] sched = some res → res = []) ∧
        (0 < env.MAXGOROUTINES →
          ∀ sched, ∃ sched', FromGit env cfg opts [f, g] (sched ++ sched') = some []) := by
  have key : ∀ (d : Detector) (g : File) (hg : PatchHeader), g.PatchHeader = some hg →
      hg.SHA = h.SHA → scanBody env d cfg opts g = [] := by
    intro d g hg hgh hsha
    unfold scanBody
    rw [hgh]
    simp only [hsha, ha, if_true]
    cases g.IsBinary <;> cases g.IsDelete <;> rfl
  refine ⟨key d f h hh rfl, fun g hg hgh hsha => FromGit_nil ?_⟩
  intro x hx
  simp only [List.mem_cons, List.mem_singleton, List.not_mem_nil, or_false] at hx
  unfold scanFindings taskBody
  rcases hx with rfl | rfl
  · rw [key _ x h hh rfl]; rfl
  · rw [key _ x hg hgh hsha]; rfl

theorem C2_witness :
    (exNormal.PatchHeader = some exHeader ∧
      exEnv.CommitAllowed exCfgAllow.Allowlist exHeader.SHA = true) ∧
      scanBody exEnv exDetector exCfgAllow exOpts exNormal = [] :=
  ⟨⟨rfl, by decide⟩,
    (C2_allowlisted_commit_empty exEnv exCfgAllow exOpts exDetector exNormal exHeader rfl
      (by decide)).1⟩

/-- C3: for a record that is not skipped, a fragment `tf` of it and a raw
match `raw` of the detector for `tf` whose `Match` does not start with
"file detected", `FromGit` appends the finalized match, and its `StartLine`
and `EndLine` are those of `raw` plus `tf.NewPosition`, the sum being that of
Go on `int` (the exact sum whenever that fits in an `int`); the finalized
match is in the slice returned under every schedule.  `Redact`, when it is
switched on, is taken to keep the line numbers. -/
theorem C3_absolute_lines (env : Env) (cfg : Config) (opts : Options) (f : File)
    (tf : TextFragment) (raw : Finding)
    (hs : isScanned env cfg f = true) (htf : tf ∈ fragments f)
    (hraw : raw ∈ rawMatches env (detectorOf env cfg opts) f tf)
    (hpre : HasPrefix raw.Match "file detected" = false)
    (hR : opts.Redact = true → RedactKeepsMetadata env) :
    Event.append (finalize env opts f tf raw) ∈ taskBody env cfg opts f ∧
    (finalize env opts f tf raw).StartLine = intAdd raw.StartLine tf.NewPosition ∧
    (finalize env opts f tf raw).EndLine = intAdd raw.EndLine tf.NewPosition ∧
    (fitsInt (raw.StartLine + tf.NewPosition) →
      (finalize env opts f tf raw).StartLine = raw.StartLine + tf.NewPosition) ∧
    (fitsInt (raw.EndLine + tf.NewPosition) →
      (finalize env opts f tf raw).EndLine = raw.EndLine + tf.NewPosition) ∧
    ∀ files sched res, f ∈ files → FromGit env cfg opts files sched = some res →
      finalize env opts f tf raw ∈ res := by
  have hl := finalize_lines hR f tf raw
  have hadj : (adjustLines tf raw).StartLine = intAdd raw.StartLine tf.NewPosition ∧
      (adjustLines tf raw).EndLine = intAdd raw.EndLine tf.NewPosition := by
    unfold adjustLines
    simp [hpre, intAdd_wrapInt]
  have hS := hl.1.trans hadj.1
  have hE := hl.2.trans hadj.2
  refine ⟨?_, hS, hE, fun hfit => hS.trans (intAdd_of_fits hfit),
    fun hfit => hE.trans (intAdd_of_fits hfit), ?_⟩
  · unfold taskBody
    rw [scanBody_eq, if_pos hs, List.mem_flatMap]
    refine ⟨tf, htf, ?_⟩
    unfold fragmentEvents
    refine List.mem_cons_of_mem _ (List.mem_flatMap.mpr ⟨raw, hraw, ?_⟩)
    unfold matchEvents
    simp
  · intro files sched res hf hres
    exact (FromGit_mem hres _).mpr ⟨f, hf, hs, tf, htf, raw, hraw, rfl⟩

/-- The scenario of the specification: a binary record, a deleted record and
a record with one fragment at offset 10 and a raw match at relative line 2
give one finding, at line 12. -/
theorem C3_witness :
    (finalize exEnv exOptsRedact exNormal exFragment exRaw).StartLine = 12 ∧
      (finalize exEnv exOptsRedact exNormal exFragment exRaw).EndLine = 12 ∧
      ∃ sched, FromGit exEnv exCfg exOptsRedact [exBinary, exDeleted, exNormal] sched =
        some [finalize exEnv exOptsRedact exNormal exFragment exRaw] := by
  have h := C3_absolute_lines exEnv exCfg exOptsRedact exNormal exFragment exRaw (by decide)
    (by decide) (by decide) (by decide) (fun _ x => ⟨rfl, rfl, rfl, rfl, rfl, rfl, rfl⟩)
  exact ⟨h.2.1.trans (by decide), h.2.2.1.trans (by decide),
    [Thread.main, Thread.main, Thread.main, Thread.main, Thread.main, Thread.main,
      Thread.main, Thread.main, Thread.main, Thread.task 2, Thread.task 0, Thread.task 2,
      Thread.task 1, Thread.task 2, Thread.task 0, Thread.task 1, Thread.task 2, Thread.main,
      Thread.task 2, Thread.main, Thread.task 2, Thread.main],
    by decide⟩

/-- C4: for a raw match whose `Match` starts with "file detected", the
finding `FromGit` appends has the `StartLine` and `EndLine` the detector
returned, whatever `tf.NewPosition` is: the offset is added to neither, before
or after the commit data are set.  `Redact`, when it is switched on, is taken
to keep the line numbers. -/
theorem C4_file_match_lines_kept (env : Env) (opts : Options) (f : File) (tf : TextFragment)
    (raw : Finding) (hpre : HasPrefix raw.Match "file detected" = true)
    (hR : opts.Redact = true → RedactKeepsMetadata env) :
    adjustLines tf raw = raw ∧
    (enrich env f tf raw).StartLine = raw.StartLine ∧
    (enrich env f tf raw).EndLine = raw.EndLine ∧
    (finalize env opts f tf raw).StartLine = raw.StartLine ∧
    (finalize env opts f tf raw).EndLine = raw.EndLine := by
  have hadj : adjustLines tf raw = raw := by
    unfold adjustLines
    simp [hpre]
  have hl := finalize_lines hR f tf raw
  have he : (enrich env f tf raw).StartLine = raw.StartLine ∧
      (enrich env f tf raw).EndLine = raw.EndLine := by
    unfold enrich
    rw [hadj]
    exact stampCommit_lines env f raw
  rw [hadj] at hl
  exact ⟨hadj, he.1, he.2, hl.1, hl.2⟩

theorem C4_witness :
    HasPrefix exFileRaw.Match "file detected" = true ∧
      (finalize exEnv exOptsRedact exPem exFragment exFileRaw).StartLine = 0 ∧
      (finalize exEnv exOptsRedact exPem exFragment exFileRaw).EndLine = 0 := by
  have h := C4_file_match_lines_kept exEnv exOptsRedact exPem exFragment exFileRaw (by decide)
    (fun _ x => ⟨rfl, rfl, rfl, rfl, rfl, rfl, rfl⟩)
  exact ⟨by decide, h.2.2.2.1, h.2.2.2.2⟩

theorem length_flatMap_eq {α β : Type} (l : List α) (g : α → List β) :
    (l.flatMap g).length = (l.map fun a => (g a).length).sum := by
  induction l with
  | nil => rfl
  | cons a as ih => simp [List.flatMap_cons, ih]

theorem length_scanFindings (env : Env) (cfg : Config) (opts : Options) (f : File) :
    (scanFindings env cfg opts f).length =
      if isScanned env cfg f then
        ((fragments f).map fun tf =>
          (rawMatches env (detectorOf env cfg opts) f tf).length).sum
      else 0 := by
  unfold scanFindings taskBody
  rw [appended_scanBody]
  split
  · rw [length_flatMap_eq]
    simp
  · rfl

theorem sum_map_filter {α : Type} (l : List α) (p : α → Bool) (g : α → Nat) :
    (l.map fun a => if p a then g a else 0).sum = ((l.filter p).map g).sum := by
  induction l with
  | nil => rfl
  | cons a as ih =>
    cases hp : p a <;> simp [List.filter_cons, hp, ih]

theorem flatMap_scanFindings (env : Env) (cfg : Config) (opts : Options)
    (files : List File) :
    files.flatMap (scanFindings env cfg opts) =
      (files.filter (isScanned env cfg)).flatMap fun f =>
        (fragments f).flatMap fun tf =>
          (rawMatches env (detectorOf env cfg opts) f tf).map (finalize env opts f tf) := by
  induction files with
  | nil => rfl
  | cons f fs ih =>
    have hf : scanFindings env cfg opts f =
        if isScanned env cfg f then
          (fragments f).flatMap fun tf =>
            (rawMatches env (detectorOf env cfg opts) f tf).map (finalize env opts f tf)
        else [] := appended_scanBody env _ cfg opts f
    cases hs : isScanned env cfg f <;>
      simp [List.flatMap_cons, List.filter_cons, hs, hf, ih]

/-- C5: under every schedule the slice `FromGit` returns holds, in some
order, the finalized raw matches of the detector for the fragments of the
records that are not binary, not deleted and not of an allow-listed commit,
each match once for each occurrence of its record in the stream and none left
out as a duplicate (a stream of two equal records gives twice the matches of
one); so its length is the number of raw matches, summed over those records
and their fragments.  Every run can be
continued to one in which the call returns as soon as `MAXGOROUTINES` is
positive.  For a given detector
the number of findings a goroutine appends is the same for all values of the
`Redact` and `Verbose` options. -/
theorem C5_length_is_match_count (env : Env) (cfg : Config) (opts : Options)
    (files : List File) :
    (∀ sched res, FromGit env cfg opts files sched = some res →
      res.Perm ((files.filter (isScanned env cfg)).flatMap fun f =>
        (fragments f).flatMap fun tf =>
          (rawMatches env (detectorOf env cfg opts) f tf).map (finalize env opts f tf)) ∧
      res.length = (((files.filter (isScanned env cfg)).map fun f =>
        ((fragments f).map fun tf =>
          (rawMatches env (detectorOf env cfg opts) f tf).length).sum).sum)) ∧
    (0 < env.MAXGOROUTINES →
      ∀ sched, ∃ sched' res, FromGit env cfg opts files (sched ++ sched') = some res) ∧
    (∀ (f : File) sched res, FromGit env cfg opts [f, f] sched = some res →
      res.length = 2 * (scanFindings env cfg opts f).length) ∧
    (∀ (d : Detector) (o₁ o₂ : Options) (f : File),
      (appended (scanBody env d cfg o₁ f)).length =
        (appended (scanBody env d cfg o₂ f)).length) := by
  refine ⟨?_, ?_, ?_, ?_⟩
  · intro sched res hres
    refine ⟨by rw [← flatMap_scanFindings]; exact FromGit_perm hres, ?_⟩
    rw [(FromGit_perm hres).length_eq, length_flatMap_eq, ← sum_map_filter]
    congr 1
    apply List.map_congr_left
    intro f _
    exact length_scanFindings env cfg opts f
  · intro hG sched
    exact FromGit_completes env cfg opts files hG sched
  · intro f sched res hres
    rw [(FromGit_perm hres).length_eq]
    simp [List.flatMap_cons]
    omega
  · intro d o₁ o₂ f
    rw [appended_scanBody, appended_scanBody]
    split
    · rw [length_flatMap_eq, length_flatMap_eq]
      simp
    · rfl

theorem C5_witness :
    0 < exEnv.MAXGOROUTINES ∧
      ∃ sched res, FromGit exEnv exCfg exOpts [exNormal, exNormal]
        ([Thread.main, Thread.main] ++ sched) = some res :=
  ⟨by decide,
    (C5_length_is_match_count exEnv exCfg exOpts [exNormal, exNormal]).2.1 (by decide)
      [Thread.main, Thread.main]⟩

/-- C6 as stated fails: on a record whose header has no author (`Author` is
nil) the finding keeps the author and email the detector gave it, so two raw
matches that differ in `Author` only give findings that differ in `Author`,
and `Author` is not the name of an author of the header. -/
theorem C6_counterexample :
    exNoAuthor.PatchHeader = some exHeaderNoAuthor ∧
    isScanned exEnv exCfg exNoAuthor = true ∧
    (∃ sched, FromGit exEnv exCfg exOpts [exNoAuthor] sched =
      some [finalize exEnv exOpts exNoAuthor exFragment exRaw]) ∧
    (finalize exEnv exOpts exNoAuthor exFragment exRaw).Author = "detector" ∧
    some (finalize exEnv exOpts exNoAuthor exFragment exRaw).Author ≠
      exHeaderNoAuthor.Author.map PatchIdentity.Name ∧
    (finalize exEnv exOpts exNoAuthor exFragment { exRaw with Author := "other" }).Author ≠
      (finalize exEnv exOpts exNoAuthor exFragment exRaw).Author := by
  refine ⟨rfl, by decide, ⟨[Thread.main, Thread.main, Thread.main, Thread.task 0,
    Thread.task 0, Thread.task 0, Thread.task 0, Thread.main, Thread.main], by decide⟩,
    by decide, by decide, by decide⟩

theorem stampAuthor_fields (h : PatchHeader) (fi : Finding) :
    (stampAuthor h fi).Commit = fi.Commit ∧ (stampAuthor h fi).Message = fi.Message ∧
      (stampAuthor h fi).Date = fi.Date := by
  unfold stampAuthor
  cases h.Author <;> simp

theorem finalize_fields {env : Env} {opts : Options}
    (hR : opts.Redact = true → RedactKeepsMetadata env) (f : File) (tf : TextFragment)
    (fi : Finding) :
    (finalize env opts f tf fi).Commit = (enrich env f tf fi).Commit ∧
    (finalize env opts f tf fi).Message = (enrich env f tf fi).Message ∧
    (finalize env opts f tf fi).Author = (enrich env f tf fi).Author ∧
    (finalize env opts f tf fi).Email = (enrich env f tf fi).Email ∧
    (finalize env opts f tf fi).Date = (enrich env f tf fi).Date := by
  unfold finalize
  split
  · rename_i hr
    have h := hR hr (enrich env f tf fi)
    exact ⟨h.2.2.1, h.2.2.2.1, h.2.2.2.2.1, h.2.2.2.2.2.1, h.2.2.2.2.2.2⟩
  · exact ⟨rfl, rfl, rfl, rfl, rfl⟩

theorem adjustLines_fields (tf : TextFragment) (fi : Finding) :
    (adjustLines tf fi).Author = fi.Author ∧ (adjustLines tf fi).Email = fi.Email := by
  unfold adjustLines
  split <;> simp

/-- C6, amended: for a record with a header `h`, every finding `FromGit`
appends for it has `Commit = h.SHA`, `Message = h.Message()` and `Date` the
RFC 3339 form of `h.AuthorDate` in UTC, whatever the detector had put there;
`Author` and `Email` are the name and email of `h.Author` when the header has
an author, and are what the detector had put there when it has none.
`Redact`, when it is switched on, is taken to keep these fields. -/
theorem C6_commit_metadata (env : Env) (opts : Options) (f : File) (h : PatchHeader)
    (tf : TextFragment) (raw : Finding) (hh : f.PatchHeader = some h)
    (hR : opts.Redact = true → RedactKeepsMetadata env) :
    (finalize env opts f tf raw).Commit = h.SHA ∧
    (finalize env opts f tf raw).Message = env.Message h ∧
    (finalize env opts f tf raw).Date = env.FormatRFC3339 h.AuthorDate.UTC ∧
    (∀ a, h.Author = some a →
      (finalize env opts f tf raw).Author = a.Name ∧
      (finalize env opts f tf raw).Email = a.Email) ∧
    (h.Author = none →
      (finalize env opts f tf raw).Author = raw.Author ∧
      (finalize env opts f tf raw).Email = raw.Email) := by
  obtain ⟨h1, h2, h3, h4, h5⟩ := finalize_fields hR f tf raw
  have hs := stampAuthor_fields h
  have ha := adjustLines_fields tf raw
  rw [h1, h2, h3, h4, h5]
  unfold enrich stampCommit
  rw [hh]
  refine ⟨?_, ?_, ?_, ?_, ?_⟩
  · simp [hs]
  · simp [hs]
  · simp
  · intro a hau
    simp [stampAuthor, hau]
  · intro hau
    simp [stampAuthor, hau, ha]

theorem C6_witness :
    exNormal.PatchHeader = some exHeader ∧
    (finalize exEnv exOptsRedact exNormal exFragment exRaw).Commit = "abc" ∧
    (finalize exEnv exOptsRedact exNormal exFragment exRaw).Author = "Ann" ∧
    (finalize exEnv exOptsRedact exNormal exFragment exRaw).Date = "1970-01-01T00:00:00Z" := by
  have h := C6_commit_metadata exEnv exOptsRedact exNormal exHeader exFragment exRaw rfl
    (fun _ x => ⟨rfl, rfl, rfl, rfl, rfl, rfl, rfl⟩)
  exact ⟨rfl, h.1, (h.2.2.2.1 _ rfl).1, h.2.2.1.trans (by decide)⟩

theorem mem_printedOf_taskBody {env : Env} {cfg : Config} {opts : Options} {f : File}
    {fi : Finding} (h : fi ∈ printedOf (taskBody env cfg opts f)) :
    opts.Verbose = true ∧ fi ∈ scanFindings env cfg opts f := by
  unfold taskBody at h
  rw [printedOf_scanBody] at h
  split at h
  · rename_i hv
    exact ⟨hv, h⟩
  · simp at h

theorem redact_not_mem_scanBody (env : Env) (d : Detector) (cfg : Config) (opts : Options)
    (hr : opts.Redact = false) (f : File) (fi : Finding) :
    Event.redact fi ∉ scanBody env d cfg opts f := by
  rw [scanBody_eq]
  split
  · intro hmem
    obtain ⟨tf, _, hmem⟩ := List.mem_flatMap.mp hmem
    unfold fragmentEvents at hmem
    rcases List.mem_cons.mp hmem with hmem | hmem
    · cases hmem
    · obtain ⟨raw, _, hmem⟩ := List.mem_flatMap.mp hmem
      unfold matchEvents at hmem
      rw [hr] at hmem
      cases hv : opts.Verbose <;> simp [hv] at hmem
  · simp

/-- C7: with `Redact` switched on, the goroutine handles a raw match by
calling `Redact` on the enriched match (line numbers and commit data set),
and what it then prints (when `Verbose` is on) and appends is the value
`Redact` gave back; so at every moment of every schedule each finding in
`findings`, each finding `printFinding` was called with, and each finding of
the slice returned is `Redact` of the enriched raw match of a fragment of a
record of the stream.  With `Redact` switched off the goroutine never calls
`Redact` and appends the enriched match as it is. -/
theorem C7_redact_before_visible (env : Env) (cfg : Config) (opts : Options) :
    (opts.Redact = true →
      (∀ f tf raw, matchEvents env opts f tf raw =
        Event.redact (enrich env f tf raw) ::
          ((if opts.Verbose then [Event.print (env.Redact (enrich env f tf raw))] else []) ++
            [Event.append (env.Redact (enrich env f tf raw))])) ∧
      (∀ files sched fi,
        fi ∈ (FromGitState env cfg opts files sched).findings ∨
          fi ∈ (FromGitState env cfg opts files sched).printed →
        ∃ f ∈ files, ∃ tf ∈ fragments f,
          ∃ raw ∈ rawMatches env (detectorOf env cfg opts) f tf,
            fi = env.Redact (enrich env f tf raw)) ∧
      (∀ files sched res, FromGit env cfg opts files sched = some res → ∀ fi ∈ res,
        ∃ f ∈ files, ∃ tf ∈ fragments f,
          ∃ raw ∈ rawMatches env (detectorOf env cfg opts) f tf,
            fi = env.Redact (enrich env f tf raw))) ∧
    (opts.Redact = false →
      (∀ d f fi, Event.redact fi ∉ scanBody env d cfg opts f) ∧
      (∀ f tf raw, finalize env opts f tf raw = enrich env f tf raw)) := by
  constructor
  · intro hr
    have hfin : ∀ f tf raw, finalize env opts f tf raw = env.Redact (enrich env f tf raw) := by
      intro f tf raw
      simp [finalize, hr]
    have hmem : ∀ (files : List File) (fi : Finding),
        fi ∈ files.flatMap (scanFindings env cfg opts) →
        ∃ f ∈ files, ∃ tf ∈ fragments f,
          ∃ raw ∈ rawMatches env (detectorOf env cfg opts) f tf,
            fi = env.Redact (enrich env f tf raw) := by
      intro files fi hfi
      obtain ⟨f, hf, hfi⟩ := List.mem_flatMap.mp hfi
      obtain ⟨_, tf, htf, raw, hraw, rfl⟩ := mem_scanFindings.mp hfi
      exact ⟨f, hf, tf, htf, raw, hraw, hfin f tf raw⟩
    refine ⟨?_, ?_, ?_⟩
    · intro f tf raw
      simp [matchEvents, hr, hfin]
    · intro files sched fi hfi
      rcases hfi with hfi | hfi
      · exact hmem files fi (FromGitState_findings hfi)
      · obtain ⟨f, hf, hp⟩ := List.mem_flatMap.mp (FromGitState_printed hfi)
        exact hmem files fi (List.mem_flatMap.mpr ⟨f, hf, (mem_printedOf_taskBody hp).2⟩)
    · intro files sched res hres fi hfi
      exact hmem files fi ((FromGit_perm hres).subset hfi)
  · intro hr
    refine ⟨fun d f fi => redact_not_mem_scanBody env d cfg opts hr f fi, ?_⟩
    intro f tf raw
    simp [finalize, hr]

theorem C7_witness :
    exOptsRedact.Redact = true ∧
      matchEvents exEnv exOptsRedact exNormal exFragment exRaw =
        [Event.redact (enrich exEnv exNormal exFragment exRaw),
          Event.print (exEnv.Redact (enrich exEnv exNormal exFragment exRaw)),
          Event.append (exEnv.Redact (enrich exEnv exNormal exFragment exRaw))] :=
  ⟨rfl, ((C7_redact_before_visible exEnv exCfg exOptsRedact).1 rfl).1 exNormal exFragment exRaw⟩

/-- C8: at every moment of every schedule the number of goroutines that were
started and have not yet received from `concurrentGoroutines` is at most
`MAXGOROUTINES`: the channel holds one element for each of them and one more
while the dispatching thread stands between its send and its `go` statement,
and it never holds more than its capacity; a goroutine that has not yet
received can always take its next action, so it is never blocked on its way
to the receive. -/
theorem C8_in_flight_bounded (env : Env) (cfg : Config) (opts : Options)
    (files : List File) (sched : List Thread) :
    (FromGitState env cfg opts files sched).inFlight ≤ env.MAXGOROUTINES ∧
    (FromGitState env cfg opts files sched).sem =
      (FromGitState env cfg opts files sched).inFlight +
        pcSlot (FromGitState env cfg opts files sched).pc ∧
    (FromGitState env cfg opts files sched).sem ≤ env.MAXGOROUTINES ∧
    ∀ i t, (FromGitState env cfg opts files sched).tasks[i]? = some t →
      t.released = false →
      (stepTask (FromGitState env cfg opts files sched) i).isSome = true := by
  have hinv := FromGit_inv env cfg opts files sched
  refine ⟨Inv_inFlight hinv, hinv.sem_eq, hinv.sem_le, ?_⟩
  generalize FromGitState env cfg opts files sched = s at hinv ⊢
  intro i t ht hrel
  have hpos : 0 < s.sem := by
    have hmem : t ∈ s.tasks := List.mem_iff_getElem?.mpr ⟨i, ht⟩
    have h1 : 0 < s.inFlight := by
      unfold State.inFlight
      exact List.length_pos_of_mem (List.mem_filter.mpr ⟨hmem, by simp [hrel]⟩)
    have h2 := hinv.sem_eq
    omega
  obtain ⟨rest, wd, rel⟩ := t
  simp only at hrel
  subst hrel
  unfold stepTask
  rw [ht]
  cases rest with
  | cons e es => simp
  | nil => cases wd <;> simp [hpos]

/-- After the first record is received, sent for and its goroutine started,
that goroutine holds one of the four places and can take its next action. -/
theorem C8_witness :
    (FromGitState exEnv exCfg exOpts [exNormal, exBinary]
      [Thread.main, Thread.main, Thread.main]).inFlight = 1 ∧
    (stepTask (FromGitState exEnv exCfg exOpts [exNormal, exBinary]
      [Thread.main, Thread.main, Thread.main]) 0).isSome = true := by
  have h := C8_in_flight_bounded exEnv exCfg exOpts [exNormal, exBinary]
    [Thread.main, Thread.main, Thread.main]
  exact ⟨by decide,
    h.2.2.2 0 (Task.mk (taskBody exEnv exCfg exOpts exNormal) false false) (by decide) rfl⟩

/-- C9: the goroutine of a record that is not skipped and whose
`TextFragments` is nil or empty has no event: it does not call the detector,
appends nothing and goes straight to its deferred function; and a stream with
such a record in it yields, under every schedule, the findings that the
stream without the record yields (the same findings, each as often), and
every run on it can be continued to one in which `FromGit` returns as soon as
`MAXGOROUTINES` is positive. -/
theorem C9_missing_fragments_skipped (env : Env) (cfg : Config) (opts : Options)
    (d : Detector) (f : File) (hs : isScanned env cfg f = true)
    (hf : f.TextFragments = none ∨ f.TextFragments = some []) :
    scanBody env d cfg opts f = [] ∧
    ∀ pre post : List File,
      (∀ sched res sched' res',
        FromGit env cfg opts (pre ++ f :: post) sched = some res →
        FromGit env cfg opts (pre ++ post) sched' = some res' → res.Perm res') ∧
      (0 < env.MAXGOROUTINES →
        ∀ sched, ∃ sched' res,
          FromGit env cfg opts (pre ++ f :: post) (sched ++ sched') = some res) := by
  have key : ∀ d : Detector, scanBody env d cfg opts f = [] := by
    intro d
    rw [scanBody_eq, if_pos hs]
    unfold fragments
    rcases hf with hf | hf <;> simp [hf]
  have hnil : scanFindings env cfg opts f = [] := by
    unfold scanFindings taskBody
    rw [key]
    rfl
  have hflat : ∀ pre post : List File,
      (pre ++ f :: post).flatMap (scanFindings env cfg opts) =
        (pre ++ post).flatMap (scanFindings env cfg opts) := by
    intro pre post
    simp [List.flatMap_append, List.flatMap_cons, hnil]
  refine ⟨key d, fun pre post => ⟨?_, ?_⟩⟩
  · intro sched res sched' res' hres hres'
    have h1 := FromGit_perm hres
    rw [hflat] at h1
    exact h1.trans (FromGit_perm hres').symm
  · intro hG sched
    exact FromGit_completes env cfg opts _ hG sched

theorem C9_witness :
    (isScanned exEnv exCfg exNilFragments = true ∧ exNilFragments.TextFragments = none) ∧
      scanBody exEnv exDetector exCfg exOpts exNilFragments = [] :=
  ⟨⟨by decide, rfl⟩,
    (C9_missing_fragments_skipped exEnv exCfg exOpts exDetector exNilFragments (by decide)
      (Or.inl rfl)).1⟩

/-- C10: inside the loop over `f.TextFragments` the slice is not nil, so the
`continue` of line 62 is never reached; the goroutine without lines 59-63
has the same events as the goroutine, and `FromGit` without those lines gives
under every schedule what `FromGit` gives. -/
theorem C10_nil_check_unreachable :
    (∀ (f : File) (tf : TextFragment),
      tf ∈ f.TextFragments.getD [] → f.TextFragments.isNone = false) ∧
    (∀ env d cfg opts f, scanBodyNoCheck env d cfg opts f = scanBody env d cfg opts f) ∧
    (∀ env cfg opts files sched,
      FromGitNoCheck env cfg opts files sched = FromGit env cfg opts files sched) := by
  have hloop : ∀ env d opts f sha,
      fragmentLoopNoCheck env d opts f sha = fragmentLoop env d opts f sha := by
    intro env d opts f sha
    unfold fragmentLoopNoCheck fragmentLoop
    cases f.TextFragments <;> simp
  have hbody : ∀ env d cfg opts,
      scanBodyNoCheck env d cfg opts = scanBody env d cfg opts := by
    intro env d cfg opts
    funext f
    unfold scanBodyNoCheck scanBody
    simp only [hloop]
  refine ⟨?_, fun env d cfg opts f => by rw [hbody], ?_⟩
  · intro f tf htf
    cases h : f.TextFragments with
    | none => simp [h] at htf
    | some l => rfl
  · intro env cfg opts files sched
    unfold FromGitNoCheck FromGit FromGitState taskBody
    rw [hbody]

theorem C10_witness :
    exFragment ∈ exNormal.TextFragments.getD [] ∧ exNormal.TextFragments.isNone = false ∧
      FromGitNoCheck exEnv exCfg exOpts [exNormal] [Thread.main, Thread.main] =
        FromGit exEnv exCfg exOpts [exNormal] [Thread.main, Thread.main] :=
  ⟨by decide, C10_nil_check_unreachable.1 exNormal exFragment (by decide),
    C10_nil_check_unreachable.2.2 exEnv exCfg exOpts [exNormal] [Thread.main, Thread.main]⟩

end detect
